import Mathlib

/-!
Verification of the clearskies-cortex plugin core against its specification.

The development shallowly embeds the two specified components:

* `cortex_backend.py` (`CortexBackend`): response unwrapping
  (`map_records_response`), pagination-cursor extraction
  (`get_next_page_data_from_response`) and count extraction
  (`extract_count_from_response`);
* `cortex_team_relationship_backend.py` (`CortexTeamRelationshipBackend`):
  the edge scan (`_fetch_and_map_relationship_data`, lines 73-98) and the
  depth-first closure-table walk (`_build_mapping_records`, lines 100-123).

JSON values are embedded as an inductive `JsonVal`; Python dicts are
association lists preserving insertion order, which matches Python 3.7+
dict semantics (iteration order is insertion order; assigning to an
existing key keeps its position).
-/

namespace Cortex

/-- A JSON value as consumed by the backend: strings, integers, arrays and
objects.  Python dicts become association lists in insertion order. -/
inductive JsonVal where
  | str : String → JsonVal
  | num : Int → JsonVal
  | list : List JsonVal → JsonVal
  | dict : List (String × JsonVal) → JsonVal

/-- Lookup in an insertion-ordered dict: the first entry with the given key,
mirroring Python `d.get(key, None)` (Python dicts have unique keys, so the
first match is the only one). -/
def dictGet : List (String × JsonVal) → String → Option JsonVal
  | [], _ => none
  | (k, v) :: rest, key => if k = key then some v else dictGet rest key

/-- Python `isinstance(v, dict)`. -/
def JsonVal.isDict : JsonVal → Bool
  | .dict _ => true
  | _ => false

/-- The pagination keys stripped by `map_records_response`
(`cortex_backend.py` line 159). -/
def paginationKeys : List String := ["page", "totalPages", "total"]

/-- Modelled from the spec: the parent framework's record mapper
(`clearskies.backends.ApiBackend.map_records_response`), which belongs to the
external `clearskies` library and is not part of this repository.  Per the
spec: a list body is itself the record sequence; a map body with no record
array is treated as one single record; an empty map where no record array
can be found is a hard shape failure (the repository's own tests pin this
behaviour: an empty dict raises, a non-empty pagination-only dict yields one
record).  A scalar body is out of the wire contract and is treated as a
shape failure as well; no claim depends on that case. -/
def api_backend_map_records_response : JsonVal → Except Unit (List JsonVal)
  | .list items => .ok items
  | .dict [] => .error ()
  | .dict entries => .ok [.dict entries]
  | _ => .error ()

/-- Embedding of `CortexBackend.map_records_response`
(`cortex_backend.py` lines 133-166), with the caller's response object
threaded explicitly as state: the second component of the result is the
response body as the caller sees it after the call.  The source only ever
reads `response_data` (the dict comprehension on line 159 builds a fresh
dict), so every branch returns the input body unchanged in the state
component. -/
def map_records_response_st (response_data : JsonVal) :
    Except Unit (List JsonVal) × JsonVal :=
  match response_data with
  | .dict entries =>
    -- line 159: fresh dict without the pagination keys
    let filtered_data := entries.filter fun kv => !(paginationKeys.contains kv.1)
    match filtered_data with
    | [] => (api_backend_map_records_response (.dict entries), .dict entries)
    | (_, v) :: _ =>
      -- lines 161-165: `first_item` is the first key of `filtered_data`;
      -- `filtered_data[first_item]` is its value `v`
      match v with
      | .list items =>
        if items.all JsonVal.isDict then
          (api_backend_map_records_response (.list items), .dict entries)
        else
          (api_backend_map_records_response (.dict entries), .dict entries)
      | _ => (api_backend_map_records_response (.dict entries), .dict entries)
  | other => (api_backend_map_records_response other, other)

/-- The result component of `map_records_response_st`: the record sequence
(or shape failure) returned to the caller. -/
def map_records_response (response_data : JsonVal) : Except Unit (List JsonVal) :=
  (map_records_response_st response_data).1

/-- Embedding of `CortexBackend.extract_count_from_response`
(`cortex_backend.py` lines 217-244).  The headers argument is ignored by the
source, so it is omitted here; the result is the pair
`(total, totalPages)` read from the body, each absent when missing. -/
def extract_count_from_response (response_data : JsonVal) :
    Option JsonVal × Option JsonVal :=
  match response_data with
  | .dict entries => (dictGet entries "total", dictGet entries "totalPages")
  | _ => (none, none)

/-- Embedding of `CortexBackend.get_next_page_data_from_response`
(`cortex_backend.py` lines 168-215), applied to the parsed response body.
`count_info` is a 2-tuple in the source and hence always truthy, so both
count fields are surfaced unconditionally when present.  The next-page check
requires `page` and `totalPages` to be integers (the wire contract declares
them `int`; on non-integer values the Python comparison would raise, which
no claim exercises). -/
def get_next_page_data_from_response (pagination_parameter_name : String)
    (response_data : JsonVal) : List (String × JsonVal) :=
  match response_data with
  | .dict entries =>
    let count_info := extract_count_from_response (.dict entries)
    let d1 : List (String × JsonVal) :=
      match count_info.1 with
      | some total_count => [("total_count", total_count)]
      | none => []
    let d2 : List (String × JsonVal) :=
      match count_info.2 with
      | some total_pages => [("total_pages", total_pages)]
      | none => []
    let next_page_data := d1 ++ d2
    match dictGet entries "page", dictGet entries "totalPages" with
    | some (.num page), some (.num total_pages_from_response) =>
      if page + 1 < total_pages_from_response then
        next_page_data ++ [(pagination_parameter_name, .num (page + 1))]
      else
        next_page_data
    | _, _ => next_page_data
  | _ => []

/-! ## Hierarchy materializer (`cortex_team_relationship_backend.py`) -/

/-- One relationship edge as fetched from the remote feed: the source reads
`parent_team_tag` and `child_team_tag` from each record
(`cortex_team_relationship_backend.py` lines 77-78). -/
structure Edge where
  parent_team_tag : String
  child_team_tag : String
  deriving Repr, DecidableEq

/-- One materialized closure row, without the generated `id` field (see
`MappedRecord` for rows with ids).  Mirrors the dict built on lines 106-112:
`parentTeamTag`, `childTeamTag`, `isParent` (0/1) and `level`. -/
structure Row where
  parentTeamTag : String
  childTeamTag : String
  isParent : Nat
  level : Nat
  deriving Repr, DecidableEq

/-- The `for level, parent in enumerate(parents)` loop of
`_build_mapping_records` (lines 104-113), translated as a recursion carrying
the running index `level`; `total` is `len(parents)` of the full list. -/
def rowsForAux (category : String) (total : Nat) : Nat → List String → List Row
  | _, [] => []
  | level, parent :: rest =>
    { parentTeamTag := parent, childTeamTag := category,
      isParent := if level + 1 = total then 1 else 0, level := level }
      :: rowsForAux category total (level + 1) rest

/-- The rows emitted for one visited node `category` with ancestor path
`parents` (the parents loop of `_build_mapping_records`, lines 104-113). -/
def rowsFor (parents : List String) (category : String) : List Row :=
  rowsForAux category parents.length 0 parents

/-- Python `key in d` for an insertion-ordered dict. -/
def containsKey (d : List (String × List String)) (key : String) : Bool :=
  d.any fun kv => kv.1 = key

/-- Python `relationships[parent].append(child)`: append `child` to the list
stored at `key` (the key is always present when this is called). -/
def appendChild : List (String × List String) → String → String →
    List (String × List String)
  | [], _, _ => []
  | (k, vs) :: rest, key, c =>
    if k = key then (k, vs ++ [c]) :: rest else (k, vs) :: appendChild rest key c

/-- Python `relationships.get(category, [])` (line 115). -/
def relGet : List (String × List String) → String → List String
  | [], _ => []
  | (k, vs) :: rest, key => if k = key then vs else relGet rest key

/-- The three dicts built by the edge scan of
`_fetch_and_map_relationship_data` (lines 73-86).  `known_children` and
`root_categories` map each key to itself in the source, so they are embedded
as insertion-ordered key lists. -/
structure ScanState where
  relationships : List (String × List String)
  known_children : List String
  root_categories : List String
  deriving Repr, DecidableEq

/-- One iteration of the edge-scan loop (lines 76-86), in source order:
ensure the parent's adjacency entry exists, append the child to it, record
the child as known, tentatively add the parent as a root if it has never
been seen as a child (a re-assignment to an existing dict key keeps its
position, hence the inner membership test), and drop the child from the
roots if present. -/
def scan_step (st : ScanState) (relationship : Edge) : ScanState :=
  let child_category := relationship.child_team_tag
  let parent_category := relationship.parent_team_tag
  let rels0 :=
    if containsKey st.relationships parent_category then st.relationships
    else st.relationships ++ [(parent_category, [])]
  let relationships := appendChild rels0 parent_category child_category
  let known_children :=
    if st.known_children.contains child_category then st.known_children
    else st.known_children ++ [child_category]
  let roots1 :=
    if known_children.contains parent_category then st.root_categories
    else if st.root_categories.contains parent_category then st.root_categories
    else st.root_categories ++ [parent_category]
  let root_categories :=
    if roots1.contains child_category then roots1.erase child_category else roots1
  { relationships := relationships, known_children := known_children,
    root_categories := root_categories }

/-- The full edge scan (lines 73-86): fold `scan_step` over the edge list,
starting from three empty dicts. -/
def scan_edges (edges : List Edge) : ScanState :=
  edges.foldl scan_step ⟨[], [], []⟩

/-- Embedding of `_build_mapping_records` (lines 100-123): emit one row per
ancestor of the visited node, then recurse into each child with the path
extended.  The Python recursion has no termination guard (a cyclic edge list
makes it diverge, an acknowledged limitation); the embedding adds a `fuel`
bound on recursion depth, and every theorem about finite walks is stated for
sufficient fuel. -/
def build_mapping_records : Nat → String → List (String × List String) →
    List String → List Row
  | 0, _, _, _ => []
  | fuel + 1, category, relationships, parents =>
    rowsFor parents category ++
      ((relGet relationships category).map fun child =>
        build_mapping_records fuel child relationships (parents ++ [category])).flatten

/-- The `(node, depth)` pairs visited by the walk of
`build_mapping_records`, in visit order, mirroring its recursion: the node
visited with ancestor path `parents` has depth `parents.length`.  For a
single-root tree this visits every node exactly once at its tree depth. -/
def visitedPairs : Nat → String → List (String × List String) → Nat →
    List (String × Nat)
  | 0, _, _, _ => []
  | fuel + 1, category, relationships, depth =>
    (category, depth) ::
      ((relGet relationships category).map fun child =>
        visitedPairs fuel child relationships (depth + 1)).flatten

/-- Lines 88-93 of `_fetch_and_map_relationship_data`: scan the edges, then
walk from each detected root in root-set insertion order, concatenating the
emitted rows. -/
def materializeRows (fuel : Nat) (edges : List Edge) : List Row :=
  let st := scan_edges edges
  st.root_categories.foldl
    (fun mapped_records root =>
      mapped_records ++ build_mapping_records fuel root st.relationships []) []

/-- One materialized closure row including its generated `id` (line 107:
`"id": str(uuid.uuid4())`). -/
structure MappedRecord where
  id : String
  parentTeamTag : String
  childTeamTag : String
  isParent : Nat
  level : Nat
  deriving Repr, DecidableEq

/-- Attach ids to the walk's rows.  The source draws a fresh `uuid.uuid4()`
when each row dict is created (line 107) and rows are appended in creation
order, so the k-th row of the final list carries the k-th generated id;
`id_gen` abstracts the uuid source. -/
def withIds (id_gen : Nat → String) (rows : List Row) : List MappedRecord :=
  rows.enum.map fun p =>
    { id := id_gen p.1, parentTeamTag := p.2.parentTeamTag,
      childTeamTag := p.2.childTeamTag, isParent := p.2.isParent,
      level := p.2.level }

/-- Python dict insertion `d[k] = v`: update the value in place if the key
exists (keeping its position), otherwise append. -/
def dictInsertNat : List (String × Nat) → String → Nat → List (String × Nat)
  | [], key, v => [(key, v)]
  | (k, w) :: rest, key, v =>
    if k = key then (k, v) :: rest else (k, w) :: dictInsertNat rest key v

/-- Python `d[k]` / `d.get(k)` on the id index. -/
def dictGetNat : List (String × Nat) → String → Option Nat
  | [], _ => none
  | (k, v) :: rest, key => if k = key then some v else dictGetNat rest key

/-- Line 96: `id_index = \x7bstr(record["id"]): index for (index, record) in
enumerate(mapped_records)\x7d` — `record["id"]` is already a string, so
`str` is the identity here. -/
def buildIdIndex (records : List MappedRecord) : List (String × Nat) :=
  records.enum.foldl (fun id_index p => dictInsertNat id_index p.2.id p.1) []

/-- Embedding of `_fetch_and_map_relationship_data` (lines 73-98): scan the
edges, materialize the closure rows from every root, attach generated ids,
and build the id index. -/
def fetch_and_map_relationship_data (id_gen : Nat → String) (fuel : Nat)
    (edges : List Edge) : List MappedRecord × List (String × Nat) :=
  let mapped_records := withIds id_gen (materializeRows fuel edges)
  (mapped_records, buildIdIndex mapped_records)

/-! ## Paginated record source: lemmas and claim theorems -/

/-- Helper for C6/C7: a non-empty map all of whose keys are pagination keys
is stripped to nothing and handed whole to the parent mapper, which surfaces
it as one single record. -/
theorem map_records_pagination_only_aux (entries : List (String × JsonVal))
    (hne : entries ≠ []) (hkeys : ∀ kv ∈ entries, kv.1 ∈ paginationKeys) :
    map_records_response (.dict entries) = .ok [.dict entries] := by
  have hfilter : entries.filter (fun kv => !(paginationKeys.contains kv.1)) = [] := by
    rw [List.filter_eq_nil_iff]
    intro kv hkv
    simp [hkeys kv hkv]
  cases entries with
  | nil => exact absurd rfl hne
  | cons kv rest =>
    show (map_records_response_st (.dict (kv :: rest))).1 = _
    simp only [map_records_response_st]
    rw [hfilter]
    rfl

/-- C4: for a map response body, the next-page token is `page + 1` exactly
when `page + 1 < totalPages` (zero-indexed pages); a missing `page` or
`totalPages` means no next-page token; and `total`/`totalPages` are always
surfaced as `total_count`/`total_pages` when present. -/
theorem next_page_pagination_contract (entries : List (String × JsonVal)) :
    (∀ p t : Int, dictGet entries "page" = some (.num p) →
      dictGet entries "totalPages" = some (.num t) →
      dictGet (get_next_page_data_from_response "page" (.dict entries)) "page" =
        (if p + 1 < t then some (.num (p + 1)) else none))
    ∧ (dictGet entries "page" = none →
      dictGet (get_next_page_data_from_response "page" (.dict entries)) "page" = none)
    ∧ (dictGet entries "totalPages" = none →
      dictGet (get_next_page_data_from_response "page" (.dict entries)) "page" = none)
    ∧ (∀ v, dictGet entries "total" = some v →
      dictGet (get_next_page_data_from_response "page" (.dict entries)) "total_count" =
        some v)
    ∧ (∀ v, dictGet entries "totalPages" = some v →
      dictGet (get_next_page_data_from_response "page" (.dict entries)) "total_pages" =
        some v) := by
  refine ⟨?_, ?_, ?_, ?_, ?_⟩
  · intro p t hp ht
    rcases hT : dictGet entries "total" with _ | v <;>
      by_cases hlt : p + 1 < t <;>
        simp [get_next_page_data_from_response, extract_count_from_response,
          hp, ht, hT, hlt, dictGet]
  · intro hp
    rcases hT : dictGet entries "total" with _ | v <;>
      rcases hTP : dictGet entries "totalPages" with _ | w <;>
        simp [get_next_page_data_from_response, extract_count_from_response,
          hp, hT, hTP, dictGet]
  · intro htp
    rcases hT : dictGet entries "total" with _ | v <;>
      rcases hP : dictGet entries "page" with _ | u <;>
        [skip; cases u; skip; cases u] <;>
        simp [get_next_page_data_from_response, extract_count_from_response,
          htp, hT, hP, dictGet]
  · intro v hv
    rcases hTP : dictGet entries "totalPages" with _ | w <;>
      rcases hP : dictGet entries "page" with _ | u <;>
        simp [get_next_page_data_from_response, extract_count_from_response,
          hv, hTP, hP, dictGet] <;>
      cases u <;> cases w <;> simp [dictGet] <;> split <;> simp [dictGet]
  · intro v hv
    rcases hT : dictGet entries "total" with _ | w <;>
      rcases hP : dictGet entries "page" with _ | u <;>
        simp [get_next_page_data_from_response, extract_count_from_response,
          hv, hT, hP, dictGet] <;>
      cases u <;> cases v <;> simp [dictGet] <;> split <;> simp [dictGet]

/-- Witness for C4 at the spec's boundary example: `page = 0`,
`totalPages = 3`, `total = 50` has next token `1` and both counts. -/
theorem next_page_pagination_contract_witness :
    dictGet (get_next_page_data_from_response "page"
      (.dict [("page", .num 0), ("totalPages", .num 3), ("total", .num 50)]))
      "page" = some (.num 1)
    ∧ dictGet (get_next_page_data_from_response "page"
      (.dict [("page", .num 0), ("totalPages", .num 3), ("total", .num 50)]))
      "total_count" = some (.num 50) := by
  have h := next_page_pagination_contract
    [("page", .num 0), ("totalPages", .num 3), ("total", .num 50)]
  exact ⟨by simpa using h.1 0 3 rfl rfl, h.2.2.2.1 (.num 50) rfl⟩

/-- Reduction of `map_records_response` on a map whose stripped form is
non-empty: only the FIRST remaining key's value is inspected. -/
theorem map_records_response_filter_cons (entries : List (String × JsonVal))
    (k : String) (v : JsonVal) (rest : List (String × JsonVal))
    (hf : entries.filter (fun kv => !(paginationKeys.contains kv.1)) = (k, v) :: rest) :
    map_records_response (.dict entries) =
      match v with
      | .list items =>
        if items.all JsonVal.isDict then .ok items
        else api_backend_map_records_response (.dict entries)
      | _ => api_backend_map_records_response (.dict entries) := by
  show (map_records_response_st (.dict entries)).1 = _
  cases v with
  | list items =>
    simp only [map_records_response_st, hf]
    by_cases h : items.all JsonVal.isDict <;>
      simp [h, api_backend_map_records_response]
  | str s => simp only [map_records_response_st, hf]
  | num n => simp only [map_records_response_st, hf]
  | dict d => simp only [map_records_response_st, hf]

/-- A map whose stripped form is non-empty comes from a non-empty map, so the
parent mapper surfaces the whole map as one record. -/
theorem api_backend_whole_map (entries : List (String × JsonVal))
    (hne : entries ≠ []) :
    api_backend_map_records_response (.dict entries) = .ok [.dict entries] := by
  cases entries with
  | nil => exact absurd rfl hne
  | cons kv rest => rfl

/-- The response body of the C5 counterexample: the first non-pagination key
`status` holds a scalar, while the later key `entities` holds a list of
maps. -/
def c5Body : List (String × JsonVal) :=
  [("status", .str "ok"), ("entities", .list [.dict [("a", .num 1)]])]

/-- C5 counterexample: on a map whose first remaining key is not a list of
maps but whose later key `entities` is, the code does NOT return the
`entities` list — it falls back to the whole map as a single record.  This
refutes the claim that the first key with a list-of-maps value is taken
regardless of its position. -/
theorem first_key_heuristic_counterexample :
    map_records_response (.dict c5Body) = .ok [.dict c5Body]
    ∧ map_records_response (.dict c5Body) ≠ .ok [.dict [("a", .num 1)]] := by
  refine ⟨rfl, ?_⟩
  intro h
  rw [show map_records_response (.dict c5Body) = .ok [.dict c5Body] from rfl] at h
  simp [c5Body] at h

/-- C5 amended: after stripping pagination keys, only the FIRST remaining
key is inspected — its value is returned when it is a list of maps, and
otherwise the whole original map is handed to the parent mapper as a single
record, even if a later remaining key holds a list of maps. -/
theorem map_records_first_remaining_key (entries : List (String × JsonVal)) :
    (∀ k items rest,
      entries.filter (fun kv => !(paginationKeys.contains kv.1)) =
        (k, .list items) :: rest →
      items.all JsonVal.isDict = true →
      map_records_response (.dict entries) = .ok items)
    ∧ (∀ k v rest,
      entries.filter (fun kv => !(paginationKeys.contains kv.1)) = (k, v) :: rest →
      (∀ items, v = .list items → items.all JsonVal.isDict = false) →
      map_records_response (.dict entries) = .ok [.dict entries]) := by
  constructor
  · intro k items rest hf hall
    rw [map_records_response_filter_cons entries k (.list items) rest hf]
    simp [hall]
  · intro k v rest hf hnot
    have hne : entries ≠ [] := by
      intro h
      rw [h] at hf
      simp at hf
    rw [map_records_response_filter_cons entries k v rest hf]
    cases v with
    | list items => simp [hnot items rfl, api_backend_whole_map entries hne]
    | str s => exact api_backend_whole_map entries hne
    | num n => exact api_backend_whole_map entries hne
    | dict d => exact api_backend_whole_map entries hne

/-- Witness for the amended C5 at a body whose first remaining key does hold
a list of maps. -/
theorem map_records_first_remaining_key_witness :
    map_records_response
      (.dict [("page", .num 0), ("entities", .list [.dict [("a", .num 1)]])]) =
      .ok [.dict [("a", .num 1)]] :=
  (map_records_first_remaining_key
      [("page", .num 0), ("entities", .list [.dict [("a", .num 1)]])]).1
    "entities" [.dict [("a", .num 1)]] [] rfl rfl

/-- C6 counterexample: the body that is a map with only the pagination key
`total` is NOT rejected with a shape failure — it is surfaced as one single
record (the whole map). -/
theorem pagination_only_ok_counterexample :
    map_records_response (.dict [("total", .num 50)]) =
      .ok [.dict [("total", .num 50)]]
    ∧ map_records_response (.dict [("total", .num 50)]) ≠ .error () := by
  refine ⟨rfl, ?_⟩
  intro h
  rw [show map_records_response (.dict [("total", .num 50)]) =
      .ok [.dict [("total", .num 50)]] from rfl] at h
  exact Except.noConfusion h

/-- C6 amended: the hard shape failure occurs only when the response body is
itself the empty map; a non-empty map containing only pagination keys is
handed whole to the parent mapper and surfaced as one single record. -/
theorem map_records_empty_map_fails (entries : List (String × JsonVal)) :
    map_records_response (.dict []) = .error ()
    ∧ (entries ≠ [] → (∀ kv ∈ entries, kv.1 ∈ paginationKeys) →
        map_records_response (.dict entries) = .ok [.dict entries]) :=
  ⟨rfl, fun hne hkeys => map_records_pagination_only_aux entries hne hkeys⟩

/-- Witness for the amended C6 at the spec's scenario body. -/
theorem map_records_empty_map_fails_witness :
    map_records_response (.dict [("total", .num 50)]) =
      .ok [.dict [("total", .num 50)]] :=
  (map_records_empty_map_fails [("total", .num 50)]).2 (by simp) (by decide)

/-- C7: a response body that is a dict containing only pagination keys
(and at least one of them, and no other keys) is surfaced as exactly one
record — the whole map — not as an empty result. -/
theorem pagination_only_single_record (entries : List (String × JsonVal))
    (hne : entries ≠ []) (hkeys : ∀ kv ∈ entries, kv.1 ∈ paginationKeys) :
    map_records_response (.dict entries) = .ok [.dict entries] :=
  map_records_pagination_only_aux entries hne hkeys

/-- Witness for C7 at the body with all three pagination keys, as in the
repository's own test. -/
theorem pagination_only_single_record_witness :
    map_records_response
      (.dict [("page", .num 0), ("totalPages", .num 0), ("total", .num 0)]) =
      .ok [.dict [("page", .num 0), ("totalPages", .num 0), ("total", .num 0)]] :=
  pagination_only_single_record
    [("page", .num 0), ("totalPages", .num 0), ("total", .num 0)]
    (by simp) (by decide)

/-- Unwrapping leaves the caller's response object untouched in every
branch. -/
theorem snd_map_records_response_st (rd : JsonVal) :
    (map_records_response_st rd).2 = rd := by
  cases rd with
  | dict entries =>
    simp only [map_records_response_st]
    split
    · rfl
    · split
      · split <;> rfl
      · rfl
  | str s => rfl
  | num n => rfl
  | list items => rfl

/-- C8: unwrapping does not mutate the caller's response body — the body
after `map_records_response` is the original one, so the count extractor and
the cursor extractor read exactly the same pagination fields as before. -/
theorem map_records_response_preserves_body (rd : JsonVal) :
    (map_records_response_st rd).2 = rd
    ∧ extract_count_from_response (map_records_response_st rd).2 =
        extract_count_from_response rd
    ∧ ∀ name, get_next_page_data_from_response name (map_records_response_st rd).2 =
        get_next_page_data_from_response name rd := by
  refine ⟨snd_map_records_response_st rd, ?_, ?_⟩ <;>
    simp [snd_map_records_response_st]

/-! ## Hierarchy materializer: root-set detection (C9) -/

/-- Membership after a guarded append (Python `d[x] = x` on a dict used as
an ordered set). -/
theorem mem_addIfAbsent (l : List String) (x y : String) :
    (y ∈ if l.contains x then l else l ++ [x]) ↔ y ∈ l ∨ y = x := by
  by_cases h : x ∈ l
  · rw [if_pos (List.elem_iff.mpr h)]
    constructor
    · exact Or.inl
    · rintro (hy | rfl)
      · exact hy
      · exact h
  · rw [if_neg (fun hc => h (List.elem_iff.mp hc))]
    simp

/-- A guarded append preserves distinctness. -/
theorem nodup_addIfAbsent (l : List String) (x : String) (hl : l.Nodup) :
    (if l.contains x then l else l ++ [x]).Nodup := by
  by_cases h : x ∈ l
  · rw [if_pos (List.elem_iff.mpr h)]
    exact hl
  · rw [if_neg (fun hc => h (List.elem_iff.mp hc))]
    simp [List.nodup_append, hl, h]

/-- Membership after the conditional root removal (`if child in
root_categories: del root_categories[child]`). -/
theorem mem_ite_erase (R : List String) (c r : String) (hnd : R.Nodup) :
    (r ∈ if R.contains c then R.erase c else R) ↔ r ∈ R ∧ r ≠ c := by
  by_cases h : c ∈ R
  · rw [if_pos (List.elem_iff.mpr h), hnd.mem_erase_iff]
    exact ⟨fun h => ⟨h.2, h.1⟩, fun h => ⟨h.2, h.1⟩⟩
  · rw [if_neg (fun hc => h (List.elem_iff.mp hc))]
    constructor
    · intro hr
      refine ⟨hr, ?_⟩
      rintro rfl
      exact h hr
    · exact And.left

/-- The conditional root removal preserves distinctness. -/
theorem nodup_ite_erase (R : List String) (c : String) (hnd : R.Nodup) :
    (if R.contains c then R.erase c else R).Nodup := by
  split
  · exact hnd.erase c
  · exact hnd

/-- Membership after the tentative root insertion (`if parent not in
known_children: root_categories[parent] = parent`, with a re-assignment to
an existing key keeping its position). -/
theorem mem_roots_add (R kc : List String) (p r : String) :
    (r ∈ if kc.contains p then R else if R.contains p then R else R ++ [p]) ↔
      r ∈ R ∨ (r = p ∧ p ∉ kc) := by
  by_cases hk : p ∈ kc
  · rw [if_pos (List.elem_iff.mpr hk)]
    constructor
    · exact Or.inl
    · rintro (h | ⟨rfl, h⟩)
      · exact h
      · exact absurd hk h
  · rw [if_neg (fun hc => hk (List.elem_iff.mp hc))]
    by_cases hR : p ∈ R
    · rw [if_pos (List.elem_iff.mpr hR)]
      constructor
      · exact Or.inl
      · rintro (h | ⟨rfl, _⟩)
        · exact h
        · exact hR
    · rw [if_neg (fun hc => hR (List.elem_iff.mp hc))]
      rw [List.mem_append, List.mem_singleton]
      constructor
      · rintro (h | rfl)
        · exact Or.inl h
        · exact Or.inr ⟨rfl, hk⟩
      · rintro (h | ⟨rfl, _⟩)
        · exact Or.inl h
        · exact Or.inr rfl

/-- The tentative root insertion preserves distinctness. -/
theorem nodup_roots_add (R kc : List String) (p : String) (hnd : R.Nodup) :
    (if kc.contains p then R else if R.contains p then R else R ++ [p]).Nodup := by
  by_cases hk : p ∈ kc
  · rw [if_pos (List.elem_iff.mpr hk)]
    exact hnd
  · rw [if_neg (fun hc => hk (List.elem_iff.mp hc))]
    by_cases hR : p ∈ R
    · rw [if_pos (List.elem_iff.mpr hR)]
      exact hnd
    · rw [if_neg (fun hc => hR (List.elem_iff.mp hc))]
      simp [List.nodup_append, hnd, hR]

/-- Membership in the root set after one scan step: the child is always
removed, and the parent is tentatively added exactly when it has never been
seen as a child (including as the child of the edge being scanned). -/
theorem mem_root_categories_scan_step (st : ScanState) (e : Edge)
    (hnd : st.root_categories.Nodup) (r : String) :
    r ∈ (scan_step st e).root_categories ↔
      (r ∈ st.root_categories ∨
        (r = e.parent_team_tag ∧ e.parent_team_tag ∉ st.known_children ∧
          e.parent_team_tag ≠ e.child_team_tag))
      ∧ r ≠ e.child_team_tag := by
  simp only [scan_step]
  rw [mem_ite_erase _ _ _ (nodup_roots_add _ _ _ hnd), mem_roots_add,
    mem_addIfAbsent]
  tauto

/-- The root set stays duplicate-free across a scan step. -/
theorem nodup_root_categories_scan_step (st : ScanState) (e : Edge)
    (hnd : st.root_categories.Nodup) :
    (scan_step st e).root_categories.Nodup := by
  simp only [scan_step]
  exact nodup_ite_erase _ _ (nodup_roots_add _ _ _ hnd)

/-- The scan invariant: after folding `scan_step` over any edge list, the
known-children dict holds exactly the observed children, the root set is
duplicate-free, and it holds exactly the nodes that appear as a parent of
some edge and as the child of none. -/
theorem scan_edges_invariant (edges : List Edge) :
    (scan_edges edges).root_categories.Nodup
    ∧ (∀ c, c ∈ (scan_edges edges).known_children ↔
        ∃ e ∈ edges, e.child_team_tag = c)
    ∧ (∀ r, r ∈ (scan_edges edges).root_categories ↔
        (∃ e ∈ edges, e.parent_team_tag = r) ∧
          ∀ e ∈ edges, e.child_team_tag ≠ r) := by
  induction edges using List.reverseRecOn with
  | nil => simp [scan_edges]
  | append_singleton es e ih =>
    obtain ⟨hnd, hkn, hrt⟩ := ih
    have hstep : scan_edges (es ++ [e]) = scan_step (scan_edges es) e := by
      simp [scan_edges, List.foldl_append]
    rw [hstep]
    refine ⟨nodup_root_categories_scan_step _ _ hnd, ?_, ?_⟩
    · intro c
      have hmem : c ∈ (scan_step (scan_edges es) e).known_children ↔
          c ∈ (scan_edges es).known_children ∨ c = e.child_team_tag := by
        simp only [scan_step]
        exact mem_addIfAbsent _ _ _
      rw [hmem, hkn c]
      constructor
      · rintro (⟨e', he', rfl⟩ | rfl)
        · exact ⟨e', List.mem_append_left _ he', rfl⟩
        · exact ⟨e, List.mem_append_right _ (List.mem_singleton_self e), rfl⟩
      · rintro ⟨e', he', rfl⟩
        rcases List.mem_append.mp he' with h | h
        · exact Or.inl ⟨e', h, rfl⟩
        · rw [List.mem_singleton.mp h]
          exact Or.inr rfl
    · intro r
      rw [mem_root_categories_scan_step _ _ hnd r, hrt r]
      have hknp := hkn e.parent_team_tag
      constructor
      · rintro ⟨⟨⟨e', he', rfl⟩, hall⟩ | ⟨rfl, hnk, hne⟩, hrc⟩
        · refine ⟨⟨e', List.mem_append_left _ he', rfl⟩, ?_⟩
          intro e'' he''
          rcases List.mem_append.mp he'' with h | h
          · exact hall e'' h
          · rw [List.mem_singleton.mp h]
            exact fun hc => hrc hc.symm
        · refine ⟨⟨e, List.mem_append_right _ (List.mem_singleton_self e), rfl⟩, ?_⟩
          intro e'' he''
          rcases List.mem_append.mp he'' with h | h
          · intro hc
            exact hnk (hknp.mpr ⟨e'', h, hc⟩)
          · rw [List.mem_singleton.mp h]
            exact fun hc => hne hc.symm
      · rintro ⟨⟨e', he', rfl⟩, hall⟩
        have hrc : e'.parent_team_tag ≠ e.child_team_tag := by
          intro hc
          exact hall e (List.mem_append_right _ (List.mem_singleton_self e)) hc.symm
        rcases List.mem_append.mp he' with h | h
        · refine ⟨Or.inl ⟨⟨e', h, rfl⟩, ?_⟩, hrc⟩
          intro e'' he''
          exact hall e'' (List.mem_append_left _ he'')
        · obtain rfl : e' = e := List.mem_singleton.mp h
          by_cases hP : ∃ e'' ∈ es, e''.parent_team_tag = e'.parent_team_tag
          · refine ⟨Or.inl ⟨hP, ?_⟩, hrc⟩
            intro e'' he''
            exact hall e'' (List.mem_append_left _ he'')
          · refine ⟨Or.inr ⟨rfl, ?_, hrc⟩, hrc⟩
            intro hc
            rcases hknp.mp hc with ⟨e'', he'', hc'⟩
            exact hall e'' (List.mem_append_left _ he'') hc'

/-- C9: after the single incremental scan, the computed root set is exactly
the set of node ids that appear as a parent in some edge and are never
observed as a child in any edge, regardless of edge order. -/
theorem scan_edges_root_set (edges : List Edge) (r : String) :
    r ∈ (scan_edges edges).root_categories ↔
      (∃ e ∈ edges, e.parent_team_tag = r) ∧
        ∀ e ∈ edges, e.child_team_tag ≠ r :=
  (scan_edges_invariant edges).2.2 r

/-! ## Hierarchy materializer: levels and direct-parent flags (C1, C3) -/

/-- Projection of a closure row to the quadruple
(ancestor, descendant, level, isParent). -/
def rowQuad (r : Row) : String × String × Nat × Nat :=
  (r.parentTeamTag, r.childTeamTag, r.level, r.isParent)

/-- The spec's end-to-end example edge list
`[(Root1 → A), (Root1 → B), (A → C)]`. -/
def exampleEdges : List Edge := [⟨"Root1", "A"⟩, ⟨"Root1", "B"⟩, ⟨"A", "C"⟩]

/-- Every row emitted by the parents loop records the ancestor at the
running index: its `level` is the ancestor's position in the path and its
`isParent` flag is set exactly at the last position. -/
theorem mem_rowsForAux (category : String) (total : Nat) (qs : List String) :
    ∀ (lvl : Nat) (r : Row), r ∈ rowsForAux category total lvl qs →
      ∃ i, i < qs.length ∧ qs[i]? = some r.parentTeamTag ∧ r.level = lvl + i ∧
        r.childTeamTag = category ∧ (r.isParent = 1 ↔ r.level + 1 = total) := by
  induction qs with
  | nil =>
    intro lvl r h
    exact absurd h (List.not_mem_nil r)
  | cons p rest ih =>
    intro lvl r h
    rcases List.mem_cons.mp h with rfl | h'
    · refine ⟨0, by simp, by simp, by simp, rfl, ?_⟩
      by_cases c : lvl + 1 = total <;> simp [c]
    · obtain ⟨i, hi, hget, hlvl, hcat, hip⟩ := ih (lvl + 1) r h'
      refine ⟨i + 1, by simpa using Nat.succ_lt_succ hi, by simpa using hget,
        by omega, hcat, hip⟩

/-- C1 counterexample: on the spec's example edges the materializer yields
the row (Root1, C) with level 0 (the ancestor's distance from the root) and
(A, C) with level 1, while the claim demands (Root1, C, level 1) and
(A, C, level 0); the claimed rows are not in the output. -/
theorem materializer_example_levels_counterexample :
    (materializeRows 10 exampleEdges).map rowQuad =
      [("Root1", "A", 0, 1), ("Root1", "C", 0, 0), ("A", "C", 1, 1),
        ("Root1", "B", 0, 1)]
    ∧ ("Root1", "C", 1, 0) ∉ (materializeRows 10 exampleEdges).map rowQuad
    ∧ ("A", "C", 0, 1) ∉ (materializeRows 10 exampleEdges).map rowQuad := by
  refine ⟨by decide, by decide, by decide⟩

/-- C1 amended: a row's `level` is the index of its ancestor along the
root-to-descendant path (level 0 = topmost root, the highest level = the
immediate parent, which is the row flagged `isParent`); on the example edges
the materializer produces exactly the four rows (Root1, A, 0, direct),
(Root1, C, 0, not direct), (A, C, 1, direct), (Root1, B, 0, direct). -/
theorem level_is_path_index :
    (∀ (parents : List String) (category : String) (r : Row),
      r ∈ rowsFor parents category →
        parents[r.level]? = some r.parentTeamTag ∧ r.level < parents.length ∧
        r.childTeamTag = category ∧
        (r.isParent = 1 ↔ r.level + 1 = parents.length))
    ∧ (materializeRows 10 exampleEdges).map rowQuad =
        [("Root1", "A", 0, 1), ("Root1", "C", 0, 0), ("A", "C", 1, 1),
          ("Root1", "B", 0, 1)] := by
  constructor
  · intro parents category r h
    obtain ⟨i, hi, hget, hlvl, hcat, hip⟩ :=
      mem_rowsForAux category parents.length parents 0 r h
    have hli : r.level = i := by omega
    rw [hli]
    exact ⟨hget, hli ▸ hi, hcat, hli ▸ hip⟩
  · decide

/-- Witness for the amended C1: the second row of the path [P, Q] for node X
carries level 1, ancestor Q (the immediate parent), and the direct flag. -/
theorem level_is_path_index_witness :
    ["P", "Q"][(⟨"Q", "X", 1, 1⟩ : Row).level]? =
        some (⟨"Q", "X", 1, 1⟩ : Row).parentTeamTag
    ∧ (⟨"Q", "X", 1, 1⟩ : Row).level < (["P", "Q"] : List String).length :=
  ⟨(level_is_path_index.1 ["P", "Q"] "X" ⟨"Q", "X", 1, 1⟩ (by decide)).1,
    (level_is_path_index.1 ["P", "Q"] "X" ⟨"Q", "X", 1, 1⟩ (by decide)).2.1⟩

/-- Filtering the parents loop's output for the direct-parent flag leaves
exactly the row of the last ancestor. -/
theorem filter_isParent_rowsForAux (category last : String) (qs : List String) :
    ∀ lvl, (rowsForAux category (lvl + qs.length + 1) lvl (qs ++ [last])).filter
        (fun r => r.isParent == 1) =
      [{ parentTeamTag := last, childTeamTag := category, isParent := 1,
         level := lvl + qs.length }] := by
  induction qs with
  | nil =>
    intro lvl
    simp [rowsForAux]
  | cons p rest ih =>
    intro lvl
    have htot : lvl + (p :: rest).length + 1 = lvl + 1 + rest.length + 1 := by
      simp only [List.length_cons]
      omega
    rw [List.cons_append, htot]
    simp only [rowsForAux]
    have hne : lvl + 1 ≠ lvl + 1 + rest.length + 1 := by omega
    simp [List.filter_cons, hne, ih (lvl + 1)]
    omega

/-- C3: among the rows emitted for a visited node with a non-empty ancestor
path, exactly one carries the direct-parent flag — the row whose ancestor is
the path's last element (the immediate parent), at the path's last level. -/
theorem direct_parent_unique_last (qs : List String) (last category : String) :
    (rowsFor (qs ++ [last]) category).filter (fun r => r.isParent == 1) =
      [{ parentTeamTag := last, childTeamTag := category, isParent := 1,
         level := qs.length }] := by
  have h := filter_isParent_rowsForAux category last qs 0
  simp only [Nat.zero_add] at h
  simpa [rowsFor] using h

/-! ## Hierarchy materializer: row counts and level bounds (C2) -/

/-- The parents loop emits one row per ancestor. -/
theorem length_rowsForAux (category : String) (total : Nat) (qs : List String) :
    ∀ lvl, (rowsForAux category total lvl qs).length = qs.length := by
  induction qs with
  | nil => intro lvl; rfl
  | cons p rest ih =>
    intro lvl
    simp [rowsForAux, ih (lvl + 1)]

/-- The walk emits, at each visited node, as many rows as that node's depth;
the total row count is the sum of the visited depths. -/
theorem length_build_mapping_records
    (relationships : List (String × List String)) :
    ∀ (fuel : Nat) (category : String) (parents : List String),
      (build_mapping_records fuel category relationships parents).length =
        ((visitedPairs fuel category relationships parents.length).map
          Prod.snd).sum := by
  intro fuel
  induction fuel with
  | zero =>
    intro category parents
    rfl
  | succ fuel ih =>
    intro category parents
    simp only [build_mapping_records, visitedPairs, List.length_append,
      List.length_flatten, List.map_map, List.map_cons, List.sum_cons,
      List.map_flatten, List.sum_flatten]
    rw [show (rowsFor parents category).length = parents.length from
      length_rowsForAux category parents.length parents 0]
    have hps : ∀ c ∈ relGet relationships category,
        (List.length ∘ fun child =>
          build_mapping_records fuel child relationships (parents ++ [category])) c =
        (List.sum ∘ List.map Prod.snd ∘ fun child =>
          visitedPairs fuel child relationships (parents.length + 1)) c := by
      intro c _
      simp only [Function.comp_apply]
      rw [ih c (parents ++ [category])]
      simp
    rw [List.map_congr_left hps]

/-- Every emitted row's descendant is visited by the walk at a depth
exceeding the row's level. -/
theorem mem_build_visited (relationships : List (String × List String)) :
    ∀ (fuel : Nat) (category : String) (parents : List String) (r : Row),
      r ∈ build_mapping_records fuel category relationships parents →
      ∃ d, (r.childTeamTag, d) ∈
          visitedPairs fuel category relationships parents.length
        ∧ r.level + 1 ≤ d := by
  intro fuel
  induction fuel with
  | zero =>
    intro _ _ r h
    exact absurd h (List.not_mem_nil r)
  | succ fuel ih =>
    intro category parents r h
    simp only [build_mapping_records] at h
    rcases List.mem_append.mp h with h1 | h2
    · obtain ⟨i, hi, _, hlvl, hcat, _⟩ :=
        mem_rowsForAux category parents.length parents 0 r h1
      refine ⟨parents.length, ?_, by omega⟩
      rw [hcat]
      exact List.mem_cons_self _ _
    · obtain ⟨s, hs, hrs⟩ := List.mem_flatten.mp h2
      obtain ⟨c, hc, rfl⟩ := List.mem_map.mp hs
      obtain ⟨d, hd, hld⟩ := ih c (parents ++ [category]) r hrs
      refine ⟨d, ?_, hld⟩
      simp only [visitedPairs]
      refine List.mem_cons_of_mem _
        (List.mem_flatten.mpr ⟨_, List.mem_map_of_mem _ hc, ?_⟩)
      simpa using hd

/-- In an association list with duplicate-free keys, a key determines its
value. -/
theorem assoc_nodup_unique :
    ∀ (l : List (String × Nat)), (l.map Prod.fst).Nodup →
      ∀ a b c, (a, b) ∈ l → (a, c) ∈ l → b = c := by
  intro l
  induction l with
  | nil =>
    intro _ a b c h1
    exact absurd h1 (List.not_mem_nil _)
  | cons kv rest ih =>
    intro hnd a b c h1 h2
    simp only [List.map_cons, List.nodup_cons] at hnd
    rcases List.mem_cons.mp h1 with heq1 | h1'
    · rcases List.mem_cons.mp h2 with heq2 | h2'
      · exact congrArg Prod.snd (heq1.trans heq2.symm)
      · exfalso
        apply hnd.1
        have ha : a ∈ rest.map Prod.fst := by
          simpa using List.mem_map_of_mem Prod.fst h2'
        rw [← heq1]
        exact ha
    · rcases List.mem_cons.mp h2 with heq2 | h2'
      · exfalso
        apply hnd.1
        have ha : a ∈ rest.map Prod.fst := by
          simpa using List.mem_map_of_mem Prod.fst h1'
        rw [← heq2]
        exact ha
      · exact ih hnd.2 a b c h1' h2'

/-- With a single detected root, materialization is exactly the walk from
that root. -/
theorem materializeRows_single_root (fuel : Nat) (edges : List Edge)
    (root : String)
    (hroots : (scan_edges edges).root_categories = [root]) :
    materializeRows fuel edges =
      build_mapping_records fuel root (scan_edges edges).relationships [] := by
  simp [materializeRows, hroots]

/-- C2 counterexample: for the single-root tree with one edge R → A, the row
(R, A) has level 0 while its descendant A has depth 1, so the claimed bound
level ≤ depth − 2 (that is, 0 ≤ −1) fails. -/
theorem closure_level_bound_counterexample :
    (materializeRows 5 [⟨"R", "A"⟩]).map rowQuad = [("R", "A", 0, 1)]
    ∧ visitedPairs 5 "R" (scan_edges [⟨"R", "A"⟩]).relationships 0 =
        [("R", 0), ("A", 1)]
    ∧ ¬(∀ r ∈ materializeRows 5 [⟨"R", "A"⟩],
        ∀ p ∈ visitedPairs 5 "R" (scan_edges [⟨"R", "A"⟩]).relationships 0,
          p.1 = r.childTeamTag → (r.level : Int) ≤ (p.2 : Int) - 2) := by
  refine ⟨by decide, by decide, by decide⟩

/-- C2 amended: for a single-root materialization whose walk visits each
node once (the single-root-tree case), the number of rows equals the sum
over all visited nodes of their 0-based depth (the root, at depth 0,
contributes no rows), and every row's level lies in [0, depth − 1] of its
descendant's depth (level + 1 ≤ depth); no row has the root as
descendant. -/
theorem closure_count_and_level_bound (fuel : Nat) (edges : List Edge)
    (root : String)
    (hroots : (scan_edges edges).root_categories = [root])
    (hnd : ((visitedPairs fuel root (scan_edges edges).relationships 0).map
      Prod.fst).Nodup) :
    (materializeRows fuel edges).length =
      ((visitedPairs fuel root (scan_edges edges).relationships 0).map
        Prod.snd).sum
    ∧ ∀ r ∈ materializeRows fuel edges,
        (∀ d, (r.childTeamTag, d) ∈
            visitedPairs fuel root (scan_edges edges).relationships 0 →
          r.level + 1 ≤ d)
        ∧ r.childTeamTag ≠ root := by
  rw [materializeRows_single_root fuel edges root hroots]
  constructor
  · have h := length_build_mapping_records
      (scan_edges edges).relationships fuel root []
    simpa using h
  · intro r hr
    obtain ⟨d, hd, hld⟩ := by
      have h := mem_build_visited (scan_edges edges).relationships fuel root [] r hr
      simpa using h
    constructor
    · intro d' hd'
      have hdd : d' = d := assoc_nodup_unique _ hnd r.childTeamTag d' d hd' hd
      omega
    · intro hEq
      cases fuel with
      | zero => exact absurd hr (List.not_mem_nil r)
      | succ fuel =>
        have hhead : (root, 0) ∈
            visitedPairs (fuel + 1) root (scan_edges edges).relationships 0 := by
          simp [visitedPairs]
        rw [hEq] at hd
        have : d = 0 := assoc_nodup_unique _ hnd root d 0 hd hhead
        omega

/-- Witness for the amended C2 on the two-edge chain R → A → B: three rows
(depths 1 + 2), and the row (R, A) has a non-root descendant. -/
theorem closure_count_and_level_bound_witness :
    (materializeRows 5 [⟨"R", "A"⟩, ⟨"A", "B"⟩]).length =
      ((visitedPairs 5 "R"
        (scan_edges [⟨"R", "A"⟩, ⟨"A", "B"⟩]).relationships 0).map Prod.snd).sum
    ∧ (⟨"R", "A", 1, 0⟩ : Row).childTeamTag ≠ "R" :=
  ⟨(closure_count_and_level_bound 5 [⟨"R", "A"⟩, ⟨"A", "B"⟩] "R"
      (by decide) (by decide)).1,
    ((closure_count_and_level_bound 5 [⟨"R", "A"⟩, ⟨"A", "B"⟩] "R"
      (by decide) (by decide)).2 ⟨"R", "A", 1, 0⟩ (by decide)).2⟩

/-! ## Hierarchy materializer: the id index (C10) -/

/-- Inserting a fresh key into a Python dict appends it. -/
theorem dictInsertNat_append (acc : List (String × Nat)) (k : String) (v : Nat)
    (h : ∀ q ∈ acc, q.1 ≠ k) : dictInsertNat acc k v = acc ++ [(k, v)] := by
  induction acc with
  | nil => rfl
  | cons q rest ih =>
    simp only [dictInsertNat]
    rw [if_neg (h q (List.mem_cons_self q rest))]
    rw [ih fun q' hq' => h q' (List.mem_cons_of_mem _ hq')]
    simp

/-- Folding dict insertions of pairwise-fresh keys is an append of all the
entries in order. -/
theorem foldl_dictInsert (l : List (Nat × MappedRecord)) :
    ∀ (acc : List (String × Nat)),
      (l.map fun p => p.2.id).Nodup →
      (∀ p ∈ l, ∀ q ∈ acc, p.2.id ≠ q.1) →
      l.foldl (fun id_index p => dictInsertNat id_index p.2.id p.1) acc =
        acc ++ l.map fun p => (p.2.id, p.1) := by
  induction l with
  | nil =>
    intro acc _ _
    simp
  | cons p rest ih =>
    intro acc hnd hdisj
    simp only [List.map_cons, List.nodup_cons] at hnd
    simp only [List.foldl_cons]
    rw [dictInsertNat_append acc p.2.id p.1
      fun q hq => (hdisj p (List.mem_cons_self p rest) q hq).symm]
    rw [ih (acc ++ [(p.2.id, p.1)]) hnd.2 ?_]
    · simp
    · intro p' hp' q hq
      rcases List.mem_append.mp hq with hq' | hq'
      · exact hdisj p' (List.mem_cons_of_mem p hp') q hq'
      · rw [List.mem_singleton.mp hq']
        intro hc
        apply hnd.1
        rw [show p.2.id = p'.2.id from hc.symm]
        exact List.mem_map_of_mem (fun p => p.2.id) hp'

/-- When all generated ids are distinct, the id index is exactly the list of
(id, position) pairs in row order. -/
theorem buildIdIndex_eq (records : List MappedRecord)
    (h : (records.map MappedRecord.id).Nodup) :
    buildIdIndex records = records.enum.map fun p => (p.2.id, p.1) := by
  have hmapids : (records.enum.map fun p => p.2.id) =
      records.map MappedRecord.id := by
    have h2 : (records.enum.map fun p => p.2.id) =
        (records.enum.map Prod.snd).map MappedRecord.id := by
      rw [List.map_map]
      rfl
    rw [h2, List.enum_map_snd]
  have h1 : (records.enum.map fun p => p.2.id).Nodup := by
    rw [hmapids]
    exact h
  show records.enum.foldl (fun id_index p => dictInsertNat id_index p.2.id p.1) [] = _
  rw [foldl_dictInsert records.enum [] h1 ?_]
  · simp
  · intro p _ q hq
    exact absurd hq (List.not_mem_nil q)

/-- Lookup in an association list with duplicate-free keys finds the unique
entry. -/
theorem dictGetNat_of_mem :
    ∀ (l : List (String × Nat)), (l.map Prod.fst).Nodup →
      ∀ (k : String) (v : Nat), (k, v) ∈ l → dictGetNat l k = some v := by
  intro l
  induction l with
  | nil =>
    intro _ k v h
    exact absurd h (List.not_mem_nil _)
  | cons q rest ih =>
    intro hnd k v h
    simp only [List.map_cons, List.nodup_cons] at hnd
    rcases List.mem_cons.mp h with heq | hmem
    · rw [← heq]
      simp [dictGetNat]
    · have hq : q.1 ≠ k := by
        intro hqk
        apply hnd.1
        rw [hqk]
        have : (k, v).1 ∈ rest.map Prod.fst := List.mem_map_of_mem Prod.fst hmem
        simpa using this
      simp only [dictGetNat]
      rw [if_neg hq]
      exact ih hnd.2 k v hmem

/-- C10: provided all generated row ids are pairwise distinct, the id index
built by `_fetch_and_map_relationship_data` maps the id of the row at each
position to exactly that position, with exactly one entry per row. -/
theorem id_index_maps_each_row (id_gen : Nat → String) (fuel : Nat)
    (edges : List Edge)
    (hids : ((fetch_and_map_relationship_data id_gen fuel edges).1.map
      MappedRecord.id).Nodup) :
    (∀ i (h : i < (fetch_and_map_relationship_data id_gen fuel edges).1.length),
      dictGetNat (fetch_and_map_relationship_data id_gen fuel edges).2
        (((fetch_and_map_relationship_data id_gen fuel edges).1).get ⟨i, h⟩).id =
        some i)
    ∧ (fetch_and_map_relationship_data id_gen fuel edges).2.length =
        (fetch_and_map_relationship_data id_gen fuel edges).1.length := by
  have hsnd : (fetch_and_map_relationship_data id_gen fuel edges).2 =
      buildIdIndex (fetch_and_map_relationship_data id_gen fuel edges).1 := rfl
  rw [hsnd, buildIdIndex_eq _ hids]
  have hkeys : ((fetch_and_map_relationship_data id_gen fuel edges).1.enum.map
      (fun p => (p.2.id, p.1))).map Prod.fst =
      (fetch_and_map_relationship_data id_gen fuel edges).1.map
        MappedRecord.id := by
    rw [List.map_map]
    have h2 : ((fetch_and_map_relationship_data id_gen fuel edges).1.enum.map
        Prod.snd).map MappedRecord.id =
        (fetch_and_map_relationship_data id_gen fuel edges).1.map
          MappedRecord.id := by
      rw [List.enum_map_snd]
    rw [← h2, List.map_map]
    rfl
  constructor
  · intro i h
    have helen : i < (fetch_and_map_relationship_data id_gen fuel edges).1.enum.length := by
      simpa using h
    have h2 : (fetch_and_map_relationship_data id_gen fuel edges).1.enum.get
        ⟨i, helen⟩ =
        (i, (fetch_and_map_relationship_data id_gen fuel edges).1.get ⟨i, h⟩) := by
      simp [List.getElem_enum]
    have hmem_enum : (i, (fetch_and_map_relationship_data id_gen fuel edges).1.get ⟨i, h⟩) ∈
        (fetch_and_map_relationship_data id_gen fuel edges).1.enum := by
      rw [← h2]
      exact List.get_mem _ _ _
    apply dictGetNat_of_mem _ (by rw [hkeys]; exact hids)
    exact List.mem_map_of_mem (fun p : Nat × MappedRecord => (p.2.id, p.1)) hmem_enum
  · simp

/-- Witness for C10 on a one-edge materialization with distinct generated
ids. -/
theorem id_index_maps_each_row_witness :
    dictGetNat
      (fetch_and_map_relationship_data (fun n => toString n) 3 [⟨"R", "A"⟩]).2
      (((fetch_and_map_relationship_data (fun n => toString n) 3
          [⟨"R", "A"⟩]).1).get ⟨0, by decide⟩).id = some 0
    ∧ (fetch_and_map_relationship_data (fun n => toString n) 3 [⟨"R", "A"⟩]).2.length =
      (fetch_and_map_relationship_data (fun n => toString n) 3 [⟨"R", "A"⟩]).1.length :=
  ⟨(id_index_maps_each_row (fun n => toString n) 3 [⟨"R", "A"⟩] (by decide)).1
      0 (by decide),
    (id_index_maps_each_row (fun n => toString n) 3 [⟨"R", "A"⟩] (by decide)).2⟩

end Cortex
